import Mathlib

/-!
Shallow embedding of pifactory.c, a constant-memory digit-extraction
program for pi based on Gosper's hypergeometric series, together with
proofs about its components.

C `int` values are modelled as unbounded `Int`; C `/` and `%` (truncation
toward zero) are modelled by `Int.tdiv` and `Int.tmod`.  Within the
program's documented operating range every value that reaches a division
is nonnegative, where truncated and Euclidean division agree, and no
intermediate that influences an output escapes the range in which 32-bit
wraparound is benign (products feeding reductions mod a power of two that
divides 2^32), so the unbounded model reproduces the program's behavior.
`(int)pow(a, b)` on integer arguments is exact for the magnitudes the
program produces and is modelled by exact integer exponentiation, with a
negative exponent yielding 0 as the C cast does.
-/

/-- The table of the 47 primes up to 211 from is_prime in pifactory.c. -/
def SMALL_PRIMES : List Int :=
  [2, 3, 5, 7, 11, 13, 17, 19, 23, 29,
   31, 37, 41, 43, 47, 53, 59, 61, 67, 71,
   73, 79, 83, 89, 97, 101, 103, 107, 109, 113,
   127, 131, 137, 139, 149, 151, 157, 163, 167, 173,
   179, 181, 191, 193, 197, 199, 211]

/-- The same table at type Nat, for arithmetic lemmas. -/
def SMALL_PRIMES_N : List Nat :=
  [2, 3, 5, 7, 11, 13, 17, 19, 23, 29,
   31, 37, 41, 43, 47, 53, 59, 61, 67, 71,
   73, 79, 83, 89, 97, 101, 103, 107, 109, 113,
   127, 131, 137, 139, 149, 151, 157, 163, 167, 173,
   179, 181, 191, 193, 197, 199, 211]

/-- Embedding of is_prime from pifactory.c: count one test passed for each
table prime not dividing n, plus one for a table prime equal to n, and
report primality when all 47 tests pass. -/
def is_prime (n : Int) : Bool :=
  (SMALL_PRIMES.foldl (fun count p =>
    let count := if n.tmod p ≠ 0 then count + 1 else count
    if n = p then count + 1 else count) (0 : Int)) == 47

/-- Loop body of pow_mod from pifactory.c, with explicit fuel; the fuel
never runs out when it starts at the exponent itself. -/
def powModAux (m : Int) : Nat → Nat → Int → Int → Int
  | 0, _, _, result => result
  | fuel + 1, b, a, result =>
    if b = 0 then result
    else powModAux m fuel (b / 2) ((a * a).tmod m)
      (if b % 2 = 1 then (result * a).tmod m else result)

/-- Embedding of pow_mod from pifactory.c: (a to the b) mod m by repeated
squaring. -/
def pow_mod (a : Int) (b : Nat) (m : Int) : Int :=
  powModAux m b b a 1

/-- Working state of the extended Euclidean loop in inv_mod: the two
remainders a and b and the tracked coefficients x and y. -/
structure EMState where
  a : Int
  b : Int
  x : Int
  y : Int
  deriving DecidableEq

/-- One iteration of the loop body of inv_mod from pifactory.c. -/
def em_step (s : EMState) : EMState :=
  let q1 := if s.a = 0 then 0 else s.b.tdiv s.a
  let b' := s.b - s.a * q1
  let y' := s.y - s.x * q1
  let q2 := if b' = 0 then 0 else s.a.tdiv b'
  let a' := s.a - b' * q2
  let x' := s.x - y' * q2
  EMState.mk a' b' x' y'

/-- Iterate em_step a given number of times. -/
def em_iter : Nat → EMState → EMState
  | 0, s => s
  | n + 1, s => em_iter n (em_step s)

/-- Embedding of inv_mod from pifactory.c: a fixed run of 11 iterations of
the extended Euclidean algorithm, a negative input normalized by adding m,
and the answer read from x or from y + m depending on which remainder
vanished. -/
def inv_mod (a m : Int) : Int :=
  let a' := if a < 0 then a + m else a
  let s := em_iter 11 (EMState.mk a' m 1 0)
  if s.b = 0 then s.x else s.y + m

/-- The ROOT_50K bound table from pi_digits in pifactory.c: entry i bounds
the primes whose power with exponent i is at most about 50000. -/
def ROOT_50K : List Nat := [50000, 50000, 223, 36, 14, 8, 6, 4, 3, 3]

/-- The prime-power table pi_digits builds for a prime p: powers p^i for
the indices i < 10 with p at most ROOT_50K[i].  Because ROOT_50K is
nonincreasing these indices are a prefix of 0..9, matching the contiguous
prefix of the C array that gets (re)written, whose length is
prime_power_count. -/
def buildPrimePowers (p : Nat) : List Int :=
  ((List.range 10).filter (fun i => decide (p ≤ ROOT_50K.getD i 0))).map
    (fun i => (p : Int) ^ i)

/-- Descending scan of factor_count from pifactory.c, from index i - 1
down to 0; none models the fall-through path of the C function, which
ends without returning. -/
def fcAux (pp : List Int) : Nat → Int → Option (Int × Nat)
  | 0, _ => none
  | i + 1, t =>
    if t.tmod (pp.getD i 0) = 0 then some (t.tdiv (pp.getD i 0), i)
    else fcAux pp i t

/-- Embedding of factor_count from pifactory.c: divide out the highest
tabulated power dividing t and report its index, or none on the C
fall-through (missing return) path. -/
def factor_count (pp : List Int) (t : Int) : Option (Int × Nat) :=
  fcAux pp pp.length t

/-- Total wrapper around factor_count used by the pi_digits embedding;
the default branch is never reached there because the tables pi_digits
passes in the proven range start with 1. -/
def fcD (pp : List Int) (t : Int) : Int × Nat :=
  (factor_count pp t).getD (t, 0)

/-- Model of the C expression (int)pow(p, e): exact p^e for a nonnegative
exponent, 0 when the exponent is negative (the cast truncates the
fraction to zero). -/
def powInt (p : Nat) (e : Int) : Int :=
  if e < 0 then 0 else (p : Int) ^ e.toNat

/-- Embedding of fixed_point_sum from pifactory.c: add n/d into the
two-word decimal fixed-point accumulator (hi, lo), rescaling by 256 when
d exceeds 60000, then carrying and reducing both words mod 10^9. -/
def fixed_point_sum (n d hi lo : Int) : Int × Int :=
  let ndr := if 60000 < d then (n.tdiv 256, d.tdiv 256, n.tmod 256 * 125)
             else (n, d, (0 : Int))
  let n := ndr.1
  let d := ndr.2.1
  let r := ndr.2.2
  let a := n * 32000 + r
  let hi := hi + a.tdiv d * 31250
  let b := a.tmod d * 31250
  let hi := hi + b.tdiv d
  let c := b.tmod d * 32000
  let lo := lo + c.tdiv d * 31250
  let lo := lo + (c.tmod d * 31250).tdiv d
  let hi := if 1000000000 < lo then hi + 1 else hi
  (hi.tmod 1000000000, lo.tmod 1000000000)

/-- The starting exponent pi_digits computes for a prime p: one less than
the number of tabulated powers of p that are at most 3N. -/
def exponent_init (p N : Nat) : Int :=
  ((buildPrimePowers p).countP (fun q => decide (q ≤ ((3 * N : Nat) : Int)))) - 1

/-- One iteration of the inner series loop of pi_digits (loop variable k):
strip p-powers from the term factors 2k, 2k-1, 6k-4, 9k-3 while updating
the exponent counter, fold the residues into the running numerator and
denominator products mod m, and add the k-th term into the subtotal.
The state is (exponent, numerator, denominator, subtotal). -/
def inner_step (m : Int) (p : Nat) (pp : List Int) (k : Nat)
    (st : Int × Int × Int × Int) : Int × Int × Int × Int :=
  let e := st.1
  let num := st.2.1
  let den := st.2.2.1
  let sub := st.2.2.2
  let f1 := fcD pp (2 * (k : Int))
  let e := e + f1.2
  let f2 := fcD pp (2 * (k : Int) - 1)
  let e := e + f2.2
  let terms := ((f1.1.tmod m) * (f2.1.tmod m)).tmod m
  let num := (num * terms).tmod m
  let f3 := fcD pp (6 * (k : Int) - 4)
  let e := e - f3.2
  let f4 := fcD pp (9 * (k : Int) - 3)
  let e := e - f4.2
  let terms2 := ((f3.1.tmod m) * (f4.1.tmod m)).tmod m
  let den := (den * terms2).tmod m
  let t := (50 * (k : Int) - 6).tmod m
  let t := (t * powInt p e).tmod m
  let t := (t * num).tmod m
  let t := t * inv_mod den m
  (e, num, den, (sub + t).tmod m)

/-- The per-prime body of pi_digits after the modulus m, the decimal-shift
base and the starting exponent have been fixed: run the inner series loop
for k = 1..N, apply the decimal shift to the subtotal, and fold the
resulting fraction subtotal/m into the fixed-point accumulator. -/
def prime_body (start N p : Nat) (decimal m e0 : Int) (st : Int × Int) :
    Int × Int :=
  let pp := buildPrimePowers p
  let ds := pow_mod decimal start m
  let r := (List.range' 1 N).foldl (fun s k => inner_step m p pp k s)
    (e0, 1, 1, 0)
  let subtotal := (r.2.2.2 * ds).tmod m
  fixed_point_sum subtotal m st.1 st.2

/-- The contribution of one prime p to the accumulator pair in pi_digits,
with the special case for p = 2: fold the 2^N denominator term into the
exponent, cancel powers of 2 against the decimal shift when recomputing
the modulus, skip the prime entirely when the modulus cancels to zero,
and use decimal base 5 rather than 10. -/
def prime_contribution (start N : Nat) (p : Nat) (st : Int × Int) :
    Int × Int :=
  let e0 := exponent_init p N
  if p = 2 then
    let e := e0 + (N : Int) - 1
    let m := powInt 2 (e - (start : Int))
    if m = 0 then st
    else prime_body start N p 5 m e st
  else prime_body start N p 10 (powInt p e0) e0 st

/-- Embedding of pi_digits from pifactory.c: derive the series length N
from the requested digit index, iterate over the primes up to 3N (the C
loop steps with next_prime, hence visits exactly the integers in [2, 3N]
that is_prime accepts, in increasing order), and return the high
accumulator word. -/
def pi_digits (start_digit : Nat) : Int :=
  let N := (start_digit + 19) * 238 / 269
  let primes := (List.range' 2 (3 * N - 1)).filter
    (fun p => is_prime (Int.ofNat p))
  (primes.foldl (fun st p => prime_contribution start_digit N p st)
    ((0 : Int), (0 : Int))).1

/-- The exact amount fixed_point_sum adds to the high word (before carry):
the integer part of n/d scaled to 9 decimal digits. -/
def hiGain (n d : Int) : Int := 1000000000 * n / d

/-- The exact amount fixed_point_sum adds to the low word: decimal digits
10 to 18 of n/d. -/
def loGain (n d : Int) : Int := 1000000000 * (1000000000 * n % d) / d

/-- The documented denominator bound of fixed_point_sum: a value at most
60000, or a power of 2 up to 2^23. -/
def DBound (d : Int) : Prop := d ≤ 60000 ∨ ∃ j : Nat, j ≤ 23 ∧ d = 2 ^ j

/-- Fold a list of fractions into the fixed-point accumulator pair. -/
def fps_fold (L : List (Int × Int)) (st : Int × Int) : Int × Int :=
  L.foldl (fun s f => fixed_point_sum f.1 f.2 s.1 s.2) st

/-- A fraction within the documented contract of fixed_point_sum. -/
def admissible (f : Int × Int) : Prop :=
  0 ≤ f.1 ∧ f.1 < f.2 ∧ 0 < f.2 ∧ DBound f.2

/-- No accumulation step along the fold lands the raw low word exactly on
10^9, the corner in which fixed_point_sum drops the carry. -/
def hitFree : List (Int × Int) → Int × Int → Bool
  | [], _ => true
  | f :: L, st =>
    decide (st.2 + loGain f.1 f.2 ≠ 1000000000) &&
      hitFree L (fixed_point_sum f.1 f.2 st.1 st.2)

/-- Executable trial-division primality check used to certify facts about
the fixed prime table by evaluation. -/
def primeAux (n : Nat) : Bool :=
  decide (2 ≤ n) &&
    (List.range n).all (fun d => decide (d < 2) || decide (n % d ≠ 0))

/-- The loop invariant of inv_mod: remainders stay nonnegative, the
Bezout coefficients keep their signs and the exact relation
x*b - y*a = m, both are bounded by m, both track congruences modulo m,
and the remainders stay coprime. -/
def EMInv (m a0 : Int) (s : EMState) : Prop :=
  0 ≤ s.a ∧ 0 ≤ s.b ∧ 1 ≤ s.x ∧ s.y ≤ 0 ∧
  s.x * s.b - s.y * s.a = m ∧ s.x ≤ m ∧ -m ≤ s.y ∧
  Int.ModEq m (s.x * a0) s.a ∧ Int.ModEq m (s.y * a0) s.b ∧
  IsCoprime s.a s.b

lemma DBound.dvd256 {d : Int} (h : DBound d) (h60 : 60000 < d) : 256 ∣ d := by
  rcases h with h | ⟨j, hj, rfl⟩
  · omega
  · have hj16 : 16 ≤ j := by
      by_contra hlt
      have hj15 : j ≤ 15 := by omega
      have : (2 : Int) ^ j ≤ 2 ^ 15 := pow_le_pow_right₀ (by norm_num) hj15
      norm_num at this
      omega
    have : (2 : Int) ^ 8 ∣ 2 ^ j := pow_dvd_pow 2 (by omega)
    norm_num at this
    exact this

lemma key_div (x d k : Int) (hd : d ≠ 0) :
    x * k / d = x / d * k + x % d * k / d := by
  have h1 : x * k = x % d * k + d * (x / d * k) := by
    have h := Int.ediv_add_emod x d
    calc x * k = (d * (x / d) + x % d) * k := by rw [h]
    _ = x % d * k + d * (x / d * k) := by ring
  rw [h1, Int.add_mul_ediv_left _ _ hd]
  ring

lemma emod_mul_emod (x k d : Int) : x % d * k % d = x * k % d := by
  conv_rhs => rw [Int.mul_emod]
  rw [Int.mul_emod (x % d) k, Int.emod_emod_of_dvd _ dvd_rfl]

/-- The two additions into a word made by the scaled divisions of
fixed_point_sum amount to a single division with scale 31250. -/
lemma hi_gain_eq (A D : Int) (hD : D ≠ 0) :
    A / D * 31250 + A % D * 31250 / D = 31250 * A / D := by
  rw [mul_comm 31250 A, key_div A D 31250 hD]

/-- The low-word additions of fixed_point_sum amount to a single division
of the remainder rescaled by 10^9. -/
lemma lo_gain_eq (R D : Int) (hD : D ≠ 0) :
    R * 32000 / D * 31250 + R * 32000 % D * 31250 / D
      = 1000000000 * R / D := by
  rw [← key_div (R * 32000) D 31250 hD]
  congr 1
  ring

/-- Closed form of fixed_point_sum: it adds exactly hiGain to the high
word and loGain to the low word, adds the carry when the updated low word
strictly exceeds 10^9, and reduces both words mod 10^9. -/
lemma fps_eq (n d hi lo : Int) (hn : 0 ≤ n) (hd : 0 < d)
    (h256 : 60000 < d → 256 ∣ d) :
    fixed_point_sum n d hi lo =
      ((hi + hiGain n d +
          if 1000000000 < lo + loGain n d then 1 else 0).tmod 1000000000,
       (lo + loGain n d).tmod 1000000000) := by
  have hdne : d ≠ 0 := hd.ne'
  by_cases h60 : 60000 < d
  · obtain ⟨e, rfl⟩ := h256 h60
    have he : (0 : Int) < e := by omega
    have hene : e ≠ 0 := he.ne'
    simp only [fixed_point_sum, if_pos h60, hiGain, loGain]
    rw [show ((256 * e).tdiv 256 : Int) = e from by
      rw [Int.tdiv_eq_ediv (by omega) (by norm_num),
        Int.mul_ediv_cancel_left _ (by norm_num)]]
    rw [Int.tdiv_eq_ediv hn (by norm_num : (0:Int) ≤ 256),
      Int.tmod_eq_emod hn (by norm_num : (0:Int) ≤ 256)]
    have hq : (0 : Int) ≤ n / 256 := Int.ediv_nonneg hn (by norm_num)
    have hr : (0 : Int) ≤ n % 256 := Int.emod_nonneg _ (by norm_num)
    have hA : (0 : Int) ≤ n / 256 * 32000 + n % 256 * 125 := by
      have := mul_nonneg hq (by norm_num : (0:Int) ≤ 32000)
      have := mul_nonneg hr (by norm_num : (0:Int) ≤ 125)
      omega
    rw [Int.tdiv_eq_ediv hA he.le, Int.tmod_eq_emod hA he.le]
    have hM1 : (0:Int) ≤ (n / 256 * 32000 + n % 256 * 125) % e :=
      Int.emod_nonneg _ hene
    have hB : (0:Int) ≤ (n / 256 * 32000 + n % 256 * 125) % e * 31250 :=
      mul_nonneg hM1 (by norm_num)
    rw [Int.tdiv_eq_ediv hB he.le, Int.tmod_eq_emod hB he.le, emod_mul_emod]
    have hR : (0:Int) ≤ (n / 256 * 32000 + n % 256 * 125) * 31250 % e :=
      Int.emod_nonneg _ hene
    have hC : (0:Int) ≤ (n / 256 * 32000 + n % 256 * 125) * 31250 % e * 32000 :=
      mul_nonneg hR (by norm_num)
    rw [Int.tdiv_eq_ediv hC he.le, Int.tmod_eq_emod hC he.le]
    have hD2 : (0:Int) ≤
        (n / 256 * 32000 + n % 256 * 125) * 31250 % e * 32000 % e * 31250 :=
      mul_nonneg (Int.emod_nonneg _ hene) (by norm_num)
    rw [Int.tdiv_eq_ediv hD2 he.le]
    rw [add_assoc hi, hi_gain_eq _ _ hene, add_assoc lo, lo_gain_eq _ _ hene]
    have hkey : (256:Int) * (31250 * (n / 256 * 32000 + n % 256 * 125))
        = 1000000000 * n := by
      have h := Int.ediv_add_emod n 256
      linear_combination (1000000000 : Int) * h
    have h1 : (31250:Int) * (n / 256 * 32000 + n % 256 * 125) / e
        = 1000000000 * n / (256 * e) := by
      rw [← hkey, Int.mul_ediv_mul_of_pos _ _ (by norm_num : (0:Int) < 256)]
    have h2 : (1000000000:Int) *
          ((n / 256 * 32000 + n % 256 * 125) * 31250 % e) / e
        = 1000000000 * (1000000000 * n % (256 * e)) / (256 * e) := by
      rw [← hkey, Int.mul_emod_mul_of_pos _ _ (by norm_num : (0:Int) < 256)]
      rw [show (1000000000:Int) * (256 * (31250 *
            (n / 256 * 32000 + n % 256 * 125) % e))
          = 256 * (1000000000 * (31250 * (n / 256 * 32000 + n % 256 * 125) % e))
          from by ring]
      rw [Int.mul_ediv_mul_of_pos _ _ (by norm_num : (0:Int) < 256)]
      rw [mul_comm (n / 256 * 32000 + n % 256 * 125) 31250]
    rw [h1, h2]
    split_ifs with hc <;> simp
  · simp only [fixed_point_sum, if_neg h60, hiGain, loGain]
    have hA : (0:Int) ≤ n * 32000 + 0 := by positivity
    rw [Int.tdiv_eq_ediv hA hd.le, Int.tmod_eq_emod hA hd.le]
    have hM1 : (0:Int) ≤ (n * 32000 + 0) % d := Int.emod_nonneg _ hdne
    have hB : (0:Int) ≤ (n * 32000 + 0) % d * 31250 :=
      mul_nonneg hM1 (by norm_num)
    rw [Int.tdiv_eq_ediv hB hd.le, Int.tmod_eq_emod hB hd.le, emod_mul_emod]
    have hR : (0:Int) ≤ (n * 32000 + 0) * 31250 % d := Int.emod_nonneg _ hdne
    have hC : (0:Int) ≤ (n * 32000 + 0) * 31250 % d * 32000 :=
      mul_nonneg hR (by norm_num)
    rw [Int.tdiv_eq_ediv hC hd.le, Int.tmod_eq_emod hC hd.le]
    have hD2 : (0:Int) ≤ (n * 32000 + 0) * 31250 % d * 32000 % d * 31250 :=
      mul_nonneg (Int.emod_nonneg _ hdne) (by norm_num)
    rw [Int.tdiv_eq_ediv hD2 hd.le]
    rw [add_assoc hi, hi_gain_eq _ _ hdne, add_assoc lo, lo_gain_eq _ _ hdne]
    rw [show (31250 : Int) * (n * 32000 + 0) = 1000000000 * n from by ring]
    rw [show ((n * 32000 + 0) * 31250 : Int) = 1000000000 * n from by ring]
    split_ifs with hc <;> simp

lemma hiGain_nonneg {n d : Int} (hn : 0 ≤ n) (hd : 0 < d) : 0 ≤ hiGain n d :=
  Int.ediv_nonneg (by positivity) hd.le

lemma loGain_nonneg {n d : Int} (hd : 0 < d) : 0 ≤ loGain n d :=
  Int.ediv_nonneg (mul_nonneg (by norm_num) (Int.emod_nonneg _ hd.ne')) hd.le

lemma loGain_lt {n d : Int} (hd : 0 < d) : loGain n d < 1000000000 := by
  rw [loGain, Int.ediv_lt_iff_lt_mul hd]
  have h := Int.emod_lt_of_pos (1000000000 * n) hd
  nlinarith

lemma gain_split (n d : Int) (hd : d ≠ 0) :
    n * 1000000000000000000 / d = hiGain n d * 1000000000 + loGain n d := by
  have h := key_div (1000000000 * n) d 1000000000 hd
  rw [show n * 1000000000000000000 = 1000000000 * n * 1000000000 from by ring,
    h, hiGain, loGain]
  congr 1
  ring

/-- Value form of one fixed_point_sum call: outside the dropped-carry
corner case the pair encodes exactly the previous value plus the 18-digit
truncation of n/d, reduced mod 1, and both words stay in range. -/
lemma fps_step (n d hi lo : Int) (hn : 0 ≤ n) (hd : 0 < d)
    (h256 : 60000 < d → 256 ∣ d) (hhi1 : 0 ≤ hi) (hlo1 : 0 ≤ lo)
    (hlo2 : lo < 1000000000)
    (hmiss : lo + loGain n d ≠ 1000000000) :
    (fixed_point_sum n d hi lo).1 * 1000000000 + (fixed_point_sum n d hi lo).2
      = (hi * 1000000000 + lo + n * 1000000000000000000 / d) %
          1000000000000000000 := by
  rw [fps_eq n d hi lo hn hd h256, gain_split n d hd.ne']
  have hH : 0 ≤ hiGain n d := hiGain_nonneg hn hd
  have hG0 : 0 ≤ loGain n d := loGain_nonneg hd
  have hG1 : loGain n d < 1000000000 := loGain_lt hd
  dsimp only
  split_ifs with hc
  · rw [Int.tmod_eq_emod (by omega) (by norm_num),
      Int.tmod_eq_emod (by omega) (by norm_num)]
    omega
  · rw [Int.tmod_eq_emod (by omega) (by norm_num),
      Int.tmod_eq_emod (by omega) (by norm_num)]
    omega

/-- Both accumulator words lie in [0, 10^9) after any call whose inputs
are nonnegative with a positive denominator in bound. -/
lemma fps_range (n d hi lo : Int) (hn : 0 ≤ n) (hd : 0 < d)
    (h256 : 60000 < d → 256 ∣ d) (hhi1 : 0 ≤ hi) (hlo1 : 0 ≤ lo) :
    0 ≤ (fixed_point_sum n d hi lo).1 ∧
    (fixed_point_sum n d hi lo).1 < 1000000000 ∧
    0 ≤ (fixed_point_sum n d hi lo).2 ∧
    (fixed_point_sum n d hi lo).2 < 1000000000 := by
  rw [fps_eq n d hi lo hn hd h256]
  have hH : 0 ≤ hiGain n d := hiGain_nonneg hn hd
  have hG0 : 0 ≤ loGain n d := loGain_nonneg hd
  dsimp only
  split_ifs with hc
  · rw [Int.tmod_eq_emod (by omega) (by norm_num),
      Int.tmod_eq_emod (by omega) (by norm_num)]
    omega
  · rw [Int.tmod_eq_emod (by omega) (by norm_num),
      Int.tmod_eq_emod (by omega) (by norm_num)]
    omega

lemma fps_fold_value (L : List (Int × Int)) (st : Int × Int)
    (hadm : ∀ f ∈ L, admissible f)
    (h1 : 0 ≤ st.1) (h2 : st.1 < 1000000000)
    (h3 : 0 ≤ st.2) (h4 : st.2 < 1000000000)
    (hhf : hitFree L st = true) :
    ((fps_fold L st).1 * 1000000000 + (fps_fold L st).2
       = (st.1 * 1000000000 + st.2 +
          (L.map (fun f => f.1 * 1000000000000000000 / f.2)).sum) %
            1000000000000000000)
    ∧ 0 ≤ (fps_fold L st).1 ∧ (fps_fold L st).1 < 1000000000
    ∧ 0 ≤ (fps_fold L st).2 ∧ (fps_fold L st).2 < 1000000000 := by
  induction L generalizing st with
  | nil =>
    refine ⟨?_, h1, h2, h3, h4⟩
    simp only [fps_fold, List.foldl_nil, List.map_nil, List.sum_nil]
    omega
  | cons f L ih =>
    have hadf : admissible f := hadm f (List.mem_cons_self f L)
    obtain ⟨hfn, hfnd, hfd, hfb⟩ := hadf
    have hhead : st.2 + loGain f.1 f.2 ≠ 1000000000 := by
      have := hhf
      simp only [hitFree, Bool.and_eq_true, decide_eq_true_eq] at this
      exact this.1
    have htail : hitFree L (fixed_point_sum f.1 f.2 st.1 st.2) = true := by
      have := hhf
      simp only [hitFree, Bool.and_eq_true, decide_eq_true_eq] at this
      exact this.2
    have hstep := fps_step f.1 f.2 st.1 st.2 hfn hfd
      (fun h => hfb.dvd256 h) h1 h3 h4 hhead
    have hrange := fps_range f.1 f.2 st.1 st.2 hfn hfd
      (fun h => hfb.dvd256 h) h1 h3
    have hfold : fps_fold (f :: L) st
        = fps_fold L (fixed_point_sum f.1 f.2 st.1 st.2) := rfl
    rw [hfold]
    have hih := ih (fixed_point_sum f.1 f.2 st.1 st.2)
      (fun g hg => hadm g (List.mem_cons_of_mem f hg))
      hrange.1 hrange.2.1 hrange.2.2.1 hrange.2.2.2 htail
    refine ⟨?_, hih.2⟩
    rw [hih.1, hstep]
    rw [List.map_cons, List.sum_cons, Int.emod_add_emod]
    congr 1
    ring

/-- C3 (amended): for in-range accumulator words and a contract-satisfying
fraction n/d, fixed_point_sum updates the 18-digit value hi*10^9 + lo to
(previous value + floor(n * 10^18 / d)) mod 10^18, provided the updated
raw low word does not land exactly on 10^9 (in that corner the code's
strict carry test drops the carry). -/
theorem fixed_point_sum_adds_exact (n d hi lo : Int) (hn : 0 ≤ n)
    (hnd : n < d) (hd : 0 < d) (hdb : DBound d)
    (hhi1 : 0 ≤ hi) (hhi2 : hi < 1000000000)
    (hlo1 : 0 ≤ lo) (hlo2 : lo < 1000000000)
    (hmiss : lo + loGain n d ≠ 1000000000) :
    (fixed_point_sum n d hi lo).1 * 1000000000 + (fixed_point_sum n d hi lo).2
      = (hi * 1000000000 + lo + n * 1000000000000000000 / d) %
          1000000000000000000 :=
  fps_step n d hi lo hn hd (fun h => hdb.dvd256 h) hhi1 hlo1 hlo2 hmiss

/-- Witness for the amended C3 at n/d = 1/3 from the zero accumulator. -/
theorem fixed_point_sum_adds_exact_witness :
    (0:Int) ≤ 1 ∧ (1:Int) < 3 ∧ DBound 3 ∧
    (0:Int) + loGain 1 3 ≠ 1000000000 ∧
    ((fixed_point_sum 1 3 0 0).1 * 1000000000 + (fixed_point_sum 1 3 0 0).2
      = ((0:Int) * 1000000000 + 0 + 1 * 1000000000000000000 / 3) %
          1000000000000000000) :=
  ⟨by norm_num, by norm_num, Or.inl (by norm_num), by decide,
   fixed_point_sum_adds_exact 1 3 0 0 (by norm_num) (by norm_num)
     (by norm_num) (Or.inl (by norm_num)) (by norm_num) (by norm_num)
     (by norm_num) (by norm_num) (by decide)⟩

/-- C3 counterexample: at n/d = 1/3 with hi = 0, lo = 666666667 the raw
low word lands exactly on 10^9, the strict test 'lo > 10^9' misses it,
and the returned pair is one short of the claimed value in the high
word. -/
theorem fixed_point_sum_carry_dropped :
    fixed_point_sum 1 3 0 666666667 = (333333333, 0) ∧
    (333333333 * 1000000000 + 0 : Int) ≠
      (0 * 1000000000 + 666666667 + 1 * 1000000000000000000 / 3) %
        1000000000000000000 := by
  constructor
  · decide
  · decide

/-- C8: both accumulator words lie in [0, 10^9) after a call to
fixed_point_sum whose inputs satisfy the contract and whose incoming
words are in range. -/
theorem fixed_point_sum_word_range (n d hi lo : Int) (hn : 0 ≤ n)
    (hnd : n < d) (hd : 0 < d) (hdb : DBound d)
    (hhi1 : 0 ≤ hi) (hhi2 : hi < 1000000000)
    (hlo1 : 0 ≤ lo) (hlo2 : lo < 1000000000) :
    0 ≤ (fixed_point_sum n d hi lo).1 ∧
    (fixed_point_sum n d hi lo).1 < 1000000000 ∧
    0 ≤ (fixed_point_sum n d hi lo).2 ∧
    (fixed_point_sum n d hi lo).2 < 1000000000 :=
  fps_range n d hi lo hn hd (fun h => hdb.dvd256 h) hhi1 hlo1

/-- Witness for C8 at n/d = 1/3 with words (5, 7). -/
theorem fixed_point_sum_word_range_witness :
    0 ≤ (fixed_point_sum 1 3 5 7).1 ∧
    (fixed_point_sum 1 3 5 7).1 < 1000000000 ∧
    0 ≤ (fixed_point_sum 1 3 5 7).2 ∧
    (fixed_point_sum 1 3 5 7).2 < 1000000000 :=
  fixed_point_sum_word_range 1 3 5 7 (by norm_num) (by norm_num)
    (by norm_num) (Or.inl (by norm_num)) (by norm_num) (by norm_num)
    (by norm_num) (by norm_num)

/-- C9 (amended): folding a list of contract-satisfying fractions from
the zero accumulator is permutation-invariant whenever neither order ever
lands the raw low word exactly on 10^9; in that excluded corner the code
drops a carry and the high words can differ. -/
theorem fps_fold_perm_invariant (L1 L2 : List (Int × Int))
    (hperm : L1.Perm L2) (hadm : ∀ f ∈ L1, admissible f)
    (hh1 : hitFree L1 (0, 0) = true) (hh2 : hitFree L2 (0, 0) = true) :
    fps_fold L1 (0, 0) = fps_fold L2 (0, 0) := by
  have hadm2 : ∀ f ∈ L2, admissible f := fun f hf =>
    hadm f (hperm.mem_iff.mpr hf)
  have v1 := fps_fold_value L1 (0, 0) hadm (by norm_num) (by norm_num)
    (by norm_num) (by norm_num) hh1
  have v2 := fps_fold_value L2 (0, 0) hadm2 (by norm_num) (by norm_num)
    (by norm_num) (by norm_num) hh2
  have hsum : (L1.map (fun f => f.1 * 1000000000000000000 / f.2)).sum
      = (L2.map (fun f => f.1 * 1000000000000000000 / f.2)).sum :=
    (hperm.map _).sum_eq
  have hv : (fps_fold L1 (0, 0)).1 * 1000000000 + (fps_fold L1 (0, 0)).2
      = (fps_fold L2 (0, 0)).1 * 1000000000 + (fps_fold L2 (0, 0)).2 := by
    rw [v1.1, v2.1, hsum]
  have e1 := v1.2
  have e2 := v2.2
  rw [Prod.ext_iff]
  constructor
  · omega
  · omega

/-- Witness for the amended C9 on the two-element lists [1/3, 1/2] and
[1/2, 1/3]. -/
theorem fps_fold_perm_invariant_witness :
    hitFree [((1:Int), (3:Int)), (1, 2)] (0, 0) = true ∧
    hitFree [((1:Int), (2:Int)), (1, 3)] (0, 0) = true ∧
    fps_fold [((1:Int), (3:Int)), (1, 2)] (0, 0)
      = fps_fold [((1:Int), (2:Int)), (1, 3)] (0, 0) :=
  ⟨by decide, by decide,
   fps_fold_perm_invariant [(1, 3), (1, 2)] [(1, 2), (1, 3)]
     (by decide)
     (by
       intro f hf
       simp only [List.mem_cons, List.not_mem_nil, or_false] at hf
       rcases hf with rfl | rfl
       · exact ⟨by norm_num, by norm_num, by norm_num, Or.inl (by norm_num)⟩
       · exact ⟨by norm_num, by norm_num, by norm_num, Or.inl (by norm_num)⟩)
     (by decide) (by decide)⟩

/-- C9 counterexample: three admissible fractions over the power of two
2^23 whose accumulation order changes the final pair: one order makes the
raw low word hit exactly 10^9 (carry dropped), the other wraps past it
(carry taken), so the high words differ by one. -/
theorem fps_fold_order_dependent :
    ([((9472:Int), (8388608:Int)), (6912, 8388608), (2048, 8388608)]).Perm
        [((9472:Int), (8388608:Int)), (2048, 8388608), (6912, 8388608)] ∧
    fps_fold [((9472:Int), (8388608:Int)), (6912, 8388608), (2048, 8388608)]
        (0, 0) ≠
      fps_fold [((9472:Int), (8388608:Int)), (2048, 8388608), (6912, 8388608)]
        (0, 0) := by
  constructor
  · decide
  · decide

lemma getD_pow_table (p c i : Nat) (h : i < c) :
    ((List.range c).map fun i => (p : Int) ^ i).getD i 0 = (p : Int) ^ i := by
  rw [List.getD_eq_getElem?_getD,
    List.getElem?_eq_getElem (by simpa using h)]
  simp

lemma fcAux_spec (p : Nat) (hp : 2 ≤ p) (c : Nat) (t : Int) :
    ∀ k, 1 ≤ k → k ≤ c →
    ∃ j, j < k ∧
      fcAux ((List.range c).map fun i => (p : Int) ^ i) k t
        = some (t.tdiv ((p : Int) ^ j), j) ∧
      ((p : Int) ^ j ∣ t) ∧ ∀ i, i < k → ((p : Int) ^ i ∣ t) → i ≤ j := by
  intro k
  induction k with
  | zero => omega
  | succ k ih =>
    intro _ hkc
    by_cases hdvd : (p : Int) ^ k ∣ t
    · refine ⟨k, by omega, ?_, hdvd, fun i hi _ => by omega⟩
      rw [fcAux, getD_pow_table p c k (by omega),
        Int.tmod_eq_zero_of_dvd hdvd]
      simp
    · rcases Nat.eq_zero_or_pos k with rfl | hk1
      · exact absurd (one_dvd t) (by simpa using hdvd)
      obtain ⟨j, hj, heq, hjd, hjmax⟩ := ih hk1 (by omega)
      refine ⟨j, by omega, ?_, hjd, ?_⟩
      · rw [fcAux, getD_pow_table p c k (by omega)]
        rw [if_neg (fun h => hdvd (Int.dvd_of_tmod_eq_zero h))]
        exact heq
      · intro i hi hidvd
        rcases Nat.lt_succ_iff_lt_or_eq.mp hi with hi' | rfl
        · exact hjmax i hi' hidvd
        · exact absurd hidvd hdvd

/-- C5: on the ascending table of the first c powers of a prime p, the
factor stripper returns the quotient of t by the largest tabulated power
dividing t together with that power's index, and when the returned index
is not the last one the quotient is no longer divisible by p. -/
theorem factor_count_strips_maximal (p : Nat) (hp : p.Prime) (c : Nat)
    (hc : 1 ≤ c) (t : Int) :
    ∃ j, j < c ∧
      factor_count ((List.range c).map fun i => (p : Int) ^ i) t
        = some (t.tdiv ((p : Int) ^ j), j) ∧
      ((p : Int) ^ j ∣ t) ∧
      (∀ i, i < c → ((p : Int) ^ i ∣ t) → i ≤ j) ∧
      (j + 1 < c → ¬ ((p : Int) ∣ t.tdiv ((p : Int) ^ j))) := by
  have hlen : ((List.range c).map fun i => (p : Int) ^ i).length = c := by simp
  obtain ⟨j, hj, heq, hjd, hjmax⟩ :=
    fcAux_spec p hp.two_le c t c hc le_rfl
  refine ⟨j, hj, by rw [factor_count, hlen]; exact heq, hjd, hjmax, ?_⟩
  intro hj1 hpd
  obtain ⟨q, hq⟩ := hjd
  have hpj : ((p : Int) ^ j) ≠ 0 := by
    have hp0 : (0 : Int) < (p : Int) := by exact_mod_cast hp.pos
    exact (pow_pos hp0 j).ne'
  rw [hq, Int.mul_tdiv_cancel_left _ hpj] at hpd
  obtain ⟨q', hq'⟩ := hpd
  have : ((p : Int) ^ (j + 1) ∣ t) := ⟨q', by rw [hq, hq']; ring⟩
  have := hjmax (j + 1) hj1 this
  omega

/-- Witness for C5: stripping t = 24 against the table of powers of 2 of
length 4 removes 8 and reports index 3. -/
theorem factor_count_strips_maximal_witness :
    ∃ j, j < 4 ∧
      factor_count ((List.range 4).map fun i => ((2 : Nat) : Int) ^ i) 24
        = some ((24 : Int).tdiv (((2 : Nat) : Int) ^ j), j) ∧
      (((2 : Nat) : Int) ^ j ∣ 24) ∧
      (∀ i, i < 4 → (((2 : Nat) : Int) ^ i ∣ 24) → i ≤ j) ∧
      (j + 1 < 4 → ¬ (((2 : Nat) : Int) ∣ (24 : Int).tdiv (((2 : Nat) : Int) ^ j))) :=
  factor_count_strips_maximal 2 Nat.prime_two 4 (by norm_num) 24

lemma fcAux_isSome_of_head_one (pp : List Int) (h0 : pp.getD 0 0 = 1) :
    ∀ k, 1 ≤ k → ∀ t : Int, (fcAux pp k t).isSome = true := by
  intro k
  induction k with
  | zero => omega
  | succ k ih =>
    intro _ t
    rcases Nat.eq_zero_or_pos k with rfl | hk1
    · rw [fcAux, h0]
      simp
    · rw [fcAux]
      split
      · simp
      · exact ih hk1 t

lemma buildPrimePowers_head (p : Nat) (hp : p ≤ 50000) :
    ∃ L, buildPrimePowers p = 1 :: L := by
  rw [buildPrimePowers, show List.range 10 = [0,1,2,3,4,5,6,7,8,9] from rfl]
  rw [List.filter_cons]
  rw [if_pos (by simpa using hp)]
  refine ⟨(List.filter (fun i => decide (p ≤ ROOT_50K.getD i 0))
    [1,2,3,4,5,6,7,8,9]).map (fun i => (p : Int) ^ i), ?_⟩
  rw [List.map_cons, pow_zero]

/-- C10 (amended): for every prime index the digit extractor reaches
while 3N stays at most 50000 (all of the documented accurate range), the
power table starts with p^0 = 1 and is nonempty, so factor_count always
returns from inside its scan; the fall-through path is unreachable for
those calls. -/
theorem factor_count_total_in_range (p : Nat) (hp2 : 2 ≤ p)
    (hp : p ≤ 50000) :
    (buildPrimePowers p).getD 0 0 = 1 ∧
    1 ≤ (buildPrimePowers p).length ∧
    ∀ t : Int, (factor_count (buildPrimePowers p) t).isSome = true := by
  obtain ⟨L, hL⟩ := buildPrimePowers_head p hp
  have h0 : (buildPrimePowers p).getD 0 0 = 1 := by rw [hL]; rfl
  have hlen : 1 ≤ (buildPrimePowers p).length := by rw [hL]; simp
  exact ⟨h0, hlen, fun t =>
    fcAux_isSome_of_head_one (buildPrimePowers p) h0
      (buildPrimePowers p).length hlen t⟩

/-- Witness for the amended C10 at p = 7, t = 5. -/
theorem factor_count_total_in_range_witness :
    (buildPrimePowers 7).getD 0 0 = 1 ∧
    1 ≤ (buildPrimePowers 7).length ∧
    (factor_count (buildPrimePowers 7) 5).isSome = true :=
  ⟨(factor_count_total_in_range 7 (by norm_num) (by norm_num)).1,
   (factor_count_total_in_range 7 (by norm_num) (by norm_num)).2.1,
   (factor_count_total_in_range 7 (by norm_num) (by norm_num)).2.2 5⟩

/-- C10 counterexample: at start digit 20000 (so N = 17711 and 3N =
53133) the prime 50021 is within the loop range and accepted by
is_prime, yet every entry of the ROOT_50K bound table is below it, so
the power table pi_digits builds for it is empty (prime_power_count = 0)
and factor_count falls through its scan without returning. -/
theorem factor_count_empty_table_reachable :
    buildPrimePowers 50021 = [] ∧
    factor_count (buildPrimePowers 50021) 2 = none ∧
    is_prime 50021 = true ∧
    2 ≤ 50021 ∧ 50021 ≤ 3 * ((20000 + 19) * 238 / 269) := by
  refine ⟨by decide, by decide, by decide, by decide, by decide⟩

/-- C7: in the per-prime body for p = 2, when the recomputed modulus
2^(exponent - start_digit) evaluates to 0 (full cancellation), the
accumulator pair is returned unchanged, and when it does not vanish the
iteration runs the generic body with decimal-shift base 5 instead of
10. -/
theorem prime_two_skip_and_base (start N : Nat) (st : Int × Int) :
    (powInt 2 (exponent_init 2 N + (N : Int) - 1 - (start : Int)) = 0 →
      prime_contribution start N 2 st = st) ∧
    (powInt 2 (exponent_init 2 N + (N : Int) - 1 - (start : Int)) ≠ 0 →
      prime_contribution start N 2 st =
        prime_body start N 2 5
          (powInt 2 (exponent_init 2 N + (N : Int) - 1 - (start : Int)))
          (exponent_init 2 N + (N : Int) - 1) st) := by
  constructor
  · intro h
    simp only [prime_contribution, if_pos rfl]
    rw [if_pos h]
    simp
  · intro h
    simp only [prime_contribution, if_pos rfl]
    rw [if_neg h]
    simp

/-- Witness for C7: at start digit 300 the prime-2 modulus cancels to
zero and the accumulator (7, 13) passes through unchanged, while at
start digit 1 it does not vanish and the base-5 body is taken. -/
theorem prime_two_skip_and_base_witness :
    (powInt 2 (exponent_init 2 282 + (282 : Int) - 1 - (300 : Int)) = 0 ∧
      prime_contribution 300 282 2 (7, 13) = (7, 13)) ∧
    (powInt 2 (exponent_init 2 16 + (16 : Int) - 1 - (1 : Int)) ≠ 0 ∧
      prime_contribution 1 16 2 (0, 0) =
        prime_body 1 16 2 5
          (powInt 2 (exponent_init 2 16 + (16 : Int) - 1 - (1 : Int)))
          (exponent_init 2 16 + (16 : Int) - 1) (0, 0)) :=
  ⟨⟨by decide, (prime_two_skip_and_base 300 282 (7, 13)).1 (by decide)⟩,
   ⟨by decide, (prime_two_skip_and_base 1 16 (0, 0)).2 (by decide)⟩⟩

lemma primeAux_iff (n : Nat) : primeAux n = true ↔ n.Prime := by
  rw [Nat.prime_def_lt, primeAux]
  simp only [Bool.and_eq_true, decide_eq_true_eq, List.all_eq_true,
    List.mem_range, Bool.or_eq_true]
  constructor
  · rintro ⟨hn2, hall⟩
    refine ⟨hn2, fun m hm hdvd => ?_⟩
    rcases hall m hm with hlt | hmod
    · have hm01 : m = 0 ∨ m = 1 := by omega
      rcases hm01 with rfl | rfl
      · have := Nat.eq_zero_of_zero_dvd hdvd
        omega
      · rfl
    · exact absurd (Nat.mod_eq_zero_of_dvd hdvd) hmod
  · rintro ⟨hn2, hmin⟩
    refine ⟨hn2, fun d hd => ?_⟩
    by_cases hd2 : d < 2
    · exact Or.inl hd2
    · refine Or.inr fun h0 => ?_
      have := hmin d hd (Nat.dvd_of_mod_eq_zero h0)
      omega

lemma is_prime_step (n c p : Int) :
    (let c' := if n.tmod p ≠ 0 then c + 1 else c
     if n = p then c' + 1 else c') =
      c + if n.tmod p ≠ 0 ∨ n = p then 1 else 0 := by
  by_cases hp : n = p
  · subst hp
    simp [Int.tmod_self]
  · by_cases hm : n.tmod p ≠ 0 <;> simp [hp, hm]

lemma is_prime_foldl (n : Int) (l : List Int) (c : Int) :
    l.foldl (fun count p =>
        let count := if n.tmod p ≠ 0 then count + 1 else count
        if n = p then count + 1 else count) c =
      c + l.countP (fun p => decide (n.tmod p ≠ 0 ∨ n = p)) := by
  induction l generalizing c with
  | nil => simp
  | cons p l ih =>
    rw [List.foldl_cons, ih, List.countP_cons]
    have hstep := is_prime_step n c p
    dsimp only at hstep
    rw [hstep]
    by_cases h : n.tmod p ≠ 0 ∨ n = p
    · simp only [if_pos h, decide_eq_true_eq]
      push_cast
      ring
    · simp only [if_neg h, decide_eq_true_eq]
      push_cast
      ring

lemma is_prime_char (n : Int) :
    is_prime n = true ↔ ∀ p ∈ SMALL_PRIMES, (n.tmod p ≠ 0 ∨ n = p) := by
  rw [is_prime, is_prime_foldl, beq_iff_eq]
  have hlen : SMALL_PRIMES.length = 47 := by rfl
  have hle := List.countP_le_length
    (p := fun p => decide (n.tmod p ≠ 0 ∨ n = p)) (l := SMALL_PRIMES)
  constructor
  · intro h
    have hcount : SMALL_PRIMES.countP
        (fun p => decide (n.tmod p ≠ 0 ∨ n = p)) = SMALL_PRIMES.length := by
      rw [hlen]; omega
    have := List.countP_eq_length.mp hcount
    intro p hp
    simpa using this p hp
  · intro h
    have hcount : SMALL_PRIMES.countP
        (fun p => decide (n.tmod p ≠ 0 ∨ n = p)) = SMALL_PRIMES.length :=
      List.countP_eq_length.mpr (fun p hp => by simpa using h p hp)
    rw [hcount, hlen]
    ring

lemma small_primes_map :
    SMALL_PRIMES = List.map (fun q : Nat => (q : Int)) SMALL_PRIMES_N := by
  rfl

lemma forall_int_table (P : Int → Prop) :
    (∀ p ∈ SMALL_PRIMES, P p) ↔ ∀ q ∈ SMALL_PRIMES_N, P (q : Int) := by
  constructor
  · intro h q hq
    apply h
    rw [small_primes_map]
    exact List.mem_map_of_mem _ hq
  · intro h p hp
    rw [small_primes_map] at hp
    obtain ⟨q, hq, rfl⟩ := List.mem_map.mp hp
    exact h q hq

set_option maxRecDepth 40000 in
lemma small_primes_all_prime : ∀ q ∈ SMALL_PRIMES_N, q.Prime := by
  intro q hq
  have hb : ∀ q ∈ SMALL_PRIMES_N, primeAux q = true := by decide
  exact (primeAux_iff q).mp (hb q hq)

set_option maxRecDepth 40000 in
lemma small_primes_complete :
    ∀ q < 216, primeAux q = true → q ∈ SMALL_PRIMES_N := by decide

lemma small_primes_two_le : ∀ q ∈ SMALL_PRIMES_N, 2 ≤ q := by decide

/-- C4: on the range 2 to 46340 (below the square root of INT32_MAX),
is_prime accepts n exactly when n is prime; every composite there has a
prime factor in the fixed table. -/
theorem is_prime_iff_prime (n : Nat) (h2 : 2 ≤ n) (h4 : n ≤ 46340) :
    is_prime (n : Int) = true ↔ n.Prime := by
  rw [is_prime_char]
  rw [forall_int_table (fun p => ((n : Int).tmod p ≠ 0 ∨ (n : Int) = p))]
  constructor
  · intro hchar
    by_contra hnp
    have hmf : n.minFac.Prime := Nat.minFac_prime (by omega)
    have hdvd : n.minFac ∣ n := Nat.minFac_dvd n
    have hsq : n.minFac ^ 2 ≤ n := Nat.minFac_sq_le_self (by omega) hnp
    have hle : n.minFac ≤ 215 := by nlinarith [hsq, h4]
    have hmem : n.minFac ∈ SMALL_PRIMES_N :=
      small_primes_complete _ (by omega) ((primeAux_iff _).mpr hmf)
    rcases hchar _ hmem with h | h
    · exact h (Int.tmod_eq_zero_of_dvd (Int.natCast_dvd_natCast.mpr hdvd))
    · have heq : n = n.minFac := by exact_mod_cast h
      exact hnp (heq ▸ hmf)
  · intro hp q hq
    by_cases hdq : q ∣ n
    · right
      rcases hp.eq_one_or_self_of_dvd q hdq with h1 | hqn
      · have := small_primes_two_le q hq
        omega
      · exact_mod_cast hqn.symm
    · left
      intro h0
      exact hdq (by exact_mod_cast Int.dvd_of_tmod_eq_zero h0)

/-- Witness for C4 at the prime 2. -/
theorem is_prime_iff_prime_witness :
    is_prime ((2 : Nat) : Int) = true ∧ (2 : Nat) ≤ 2 ∧ (2 : Nat) ≤ 46340 :=
  ⟨(is_prime_iff_prime 2 (by norm_num) (by norm_num)).mpr Nat.prime_two,
   by norm_num, by norm_num⟩

lemma em_step_a_zero (s : EMState) (h : s.a = 0) : em_step s = s := by
  obtain ⟨a, b, x, y⟩ := s
  simp only [em_step] at *
  subst h
  simp [Int.zero_tdiv]

lemma em_step_b_zero (s : EMState) (h : s.b = 0) : em_step s = s := by
  obtain ⟨a, b, x, y⟩ := s
  simp only [em_step] at *
  subst h
  simp [Int.zero_tdiv]

lemma em_iter_a_zero (n : Nat) (s : EMState) (h : s.a = 0) :
    em_iter n s = s := by
  induction n with
  | zero => rfl
  | succ n ih => rw [em_iter, em_step_a_zero s h, ih]

lemma em_iter_b_zero (n : Nat) (s : EMState) (h : s.b = 0) :
    em_iter n s = s := by
  induction n with
  | zero => rfl
  | succ n ih => rw [em_iter, em_step_b_zero s h, ih]

lemma em_step_components (s : EMState) (ha : 1 ≤ s.a) (hb : 0 ≤ s.b) :
    em_step s = EMState.mk
      (if s.b % s.a = 0 then s.a else s.a % (s.b % s.a))
      (s.b % s.a)
      (if s.b % s.a = 0 then s.x
        else s.x - (s.y - s.x * (s.b / s.a)) * (s.a / (s.b % s.a)))
      (s.y - s.x * (s.b / s.a)) := by
  obtain ⟨a, b, x, y⟩ := s
  simp only at ha hb
  simp only [em_step]
  rw [if_neg (by omega : ¬ a = 0)]
  rw [Int.tdiv_eq_ediv hb (by omega)]
  have hb' : b - a * (b / a) = b % a := (Int.emod_def b a).symm
  rw [hb']
  by_cases h0 : b % a = 0
  · rw [if_pos h0, if_pos h0, if_pos h0]
    simp [h0]
  · rw [if_neg h0, if_neg h0, if_neg h0]
    have hba : 0 ≤ b % a := Int.emod_nonneg _ (by omega)
    rw [Int.tdiv_eq_ediv (by omega) hba]
    have ha' : a - b % a * (a / (b % a)) = a % (b % a) :=
      (Int.emod_def a (b % a)).symm
    rw [ha']

lemma EMInv_step (m a0 : Int) (s : EMState) (h : EMInv m a0 s) :
    EMInv m a0 (em_step s) := by
  obtain ⟨ha, hb, hx, hy, hdet, hxm, hym, hca, hcb, hcop⟩ := h
  rcases eq_or_lt_of_le ha with heq | hapos
  · rw [em_step_a_zero s heq.symm]
    exact ⟨ha, hb, hx, hy, hdet, hxm, hym, hca, hcb, hcop⟩
  have ha1 : 1 ≤ s.a := by omega
  have haz : s.a ≠ 0 := by omega
  have hq1n : 0 ≤ s.b / s.a := Int.ediv_nonneg hb (by omega)
  have hb1 : 0 ≤ s.b % s.a := Int.emod_nonneg _ haz
  have hb1a : s.b % s.a < s.a := Int.emod_lt_of_pos _ (by omega)
  have hy1 : s.y - s.x * (s.b / s.a) ≤ 0 := by
    have : 0 ≤ s.x * (s.b / s.a) := mul_nonneg (by omega) hq1n
    omega
  have hmid : s.x * (s.b % s.a) - (s.y - s.x * (s.b / s.a)) * s.a = m := by
    rw [Int.emod_def]
    linear_combination hdet
  have hym1 : -m ≤ s.y - s.x * (s.b / s.a) := by
    have hxb1 : 0 ≤ s.x * (s.b % s.a) := mul_nonneg (by omega) hb1
    nlinarith [mul_nonneg (neg_nonneg.mpr hy1) (by omega : (0:Int) ≤ s.a - 1)]
  have hcb1 : Int.ModEq m ((s.y - s.x * (s.b / s.a)) * a0) (s.b % s.a) := by
    have h2 : (s.y - s.x * (s.b / s.a)) * a0
        = s.y * a0 - s.b / s.a * (s.x * a0) := by ring
    have h3 : s.b % s.a = s.b - s.b / s.a * s.a := by rw [Int.emod_def]; ring
    rw [h2, h3]
    exact hcb.sub (hca.mul_left _)
  have hcop1 : IsCoprime s.a (s.b % s.a) := by
    have h3 : s.b % s.a = s.b + s.a * (-(s.b / s.a)) := by
      rw [Int.emod_def]; ring
    rw [h3]
    exact hcop.add_mul_left_right _
  rw [em_step_components s ha1 hb]
  by_cases hb10 : s.b % s.a = 0
  · rw [if_pos hb10, if_pos hb10]
    refine ⟨by simpa using ha, by simpa using hb1, by simpa using hx,
      by simpa using hy1, ?_, by simpa using hxm, by simpa using hym1,
      by simpa using hca, by simpa using hcb1, by simpa using hcop1⟩
    simpa using hmid
  · rw [if_neg hb10, if_neg hb10]
    have hb1p : 1 ≤ s.b % s.a := by omega
    have hq2n : 1 ≤ s.a / (s.b % s.a) := by
      rw [Int.le_ediv_iff_mul_le (by omega)]
      omega
    have ha1' : 0 ≤ s.a % (s.b % s.a) := Int.emod_nonneg _ (by omega)
    have ha1b : s.a % (s.b % s.a) < s.b % s.a := Int.emod_lt_of_pos _ (by omega)
    have hx1 : 1 ≤ s.x - (s.y - s.x * (s.b / s.a)) * (s.a / (s.b % s.a)) := by
      have : 0 ≤ -(s.y - s.x * (s.b / s.a)) * (s.a / (s.b % s.a)) :=
        mul_nonneg (by omega) (by omega)
      nlinarith
    have hfin : (s.x - (s.y - s.x * (s.b / s.a)) * (s.a / (s.b % s.a)))
          * (s.b % s.a)
        - (s.y - s.x * (s.b / s.a)) * (s.a % (s.b % s.a)) = m := by
      rw [Int.emod_def s.a (s.b % s.a)]
      linear_combination hmid
    have hx1m : s.x - (s.y - s.x * (s.b / s.a)) * (s.a / (s.b % s.a)) ≤ m := by
      have hya1 : (s.y - s.x * (s.b / s.a)) * (s.a % (s.b % s.a)) ≤ 0 :=
        mul_nonpos_of_nonpos_of_nonneg hy1 ha1'
      nlinarith [mul_nonneg (by omega : (0:Int) ≤ s.x - (s.y - s.x * (s.b / s.a)) * (s.a / (s.b % s.a))) (by omega : (0:Int) ≤ s.b % s.a - 1)]
    have hca1 : Int.ModEq m
        ((s.x - (s.y - s.x * (s.b / s.a)) * (s.a / (s.b % s.a))) * a0)
        (s.a % (s.b % s.a)) := by
      have h2 : (s.x - (s.y - s.x * (s.b / s.a)) * (s.a / (s.b % s.a))) * a0
          = s.x * a0 - s.a / (s.b % s.a) * ((s.y - s.x * (s.b / s.a)) * a0) := by
        ring
      have h3 : s.a % (s.b % s.a)
          = s.a - s.a / (s.b % s.a) * (s.b % s.a) := by
        rw [Int.emod_def]; ring
      rw [h2, h3]
      exact hca.sub (hcb1.mul_left _)
    have hcop2 : IsCoprime (s.a % (s.b % s.a)) (s.b % s.a) := by
      have h3 : s.a % (s.b % s.a)
          = s.a + s.b % s.a * (-(s.a / (s.b % s.a))) := by
        rw [Int.emod_def]; ring
      rw [h3]
      exact hcop1.add_mul_left_left _
    exact ⟨by simpa using ha1', by simpa using hb1, by simpa using hx1,
      by simpa using hy1, by simpa using hfin, by simpa using hx1m,
      by simpa using hym1, by simpa using hca1, by simpa using hcb1,
      by simpa using hcop2⟩

lemma EMInv_iter (m a0 : Int) (n : Nat) (s : EMState) (h : EMInv m a0 s) :
    EMInv m a0 (em_iter n s) := by
  induction n generalizing s with
  | zero => exact h
  | succ n ih => exact ih (em_step s) (EMInv_step m a0 s h)

lemma em_fib (n : Nat) : ∀ s : EMState, 0 ≤ s.a → s.a < s.b →
    1 ≤ (em_iter n s).a → 1 ≤ (em_iter n s).b →
    (Nat.fib (2 * n + 1) : Int) ≤ s.a ∧ (Nat.fib (2 * n + 2) : Int) ≤ s.b := by
  induction n with
  | zero =>
    intro s h0 hab h1 h2
    simp only [em_iter] at h1 h2
    norm_num [Nat.fib]
    omega
  | succ n ih =>
    intro s h0 hab h1 h2
    have hiter : em_iter (n + 1) s = em_iter n (em_step s) := rfl
    have ha1 : 1 ≤ s.a := by
      by_contra hlt
      have hz : s.a = 0 := by omega
      rw [em_iter_a_zero (n + 1) s hz] at h1
      omega
    have hb0 : 0 ≤ s.b := by omega
    rw [em_step_components s ha1 hb0] at hiter
    have hb1 : 0 ≤ s.b % s.a := Int.emod_nonneg _ (by omega)
    have hb1a : s.b % s.a < s.a := Int.emod_lt_of_pos _ (by omega)
    have hb1p : 1 ≤ s.b % s.a := by
      by_contra hlt
      have hz : s.b % s.a = 0 := by omega
      rw [hiter, em_iter_b_zero n _ (by simp [hz])] at h2
      simp [hz] at h2
    simp only [if_neg (by omega : ¬ s.b % s.a = 0)] at hiter
    have ha2 : 0 ≤ s.a % (s.b % s.a) := Int.emod_nonneg _ (by omega)
    have ha2b : s.a % (s.b % s.a) < s.b % s.a := Int.emod_lt_of_pos _ (by omega)
    have ha2p : 1 ≤ s.a % (s.b % s.a) := by
      by_contra hlt
      have hz : s.a % (s.b % s.a) = 0 := by omega
      rw [hiter, em_iter_a_zero n _ (by simp [hz])] at h1
      simp [hz] at h1
    have hih := ih (EMState.mk (s.a % (s.b % s.a)) (s.b % s.a)
        (s.x - (s.y - s.x * (s.b / s.a)) * (s.a / (s.b % s.a)))
        (s.y - s.x * (s.b / s.a)))
      (by simpa using ha2) (by simpa using ha2b)
      (by rw [← hiter]; exact h1) (by rw [← hiter]; exact h2)
    simp only at hih
    obtain ⟨hfa, hfb⟩ := hih
    have hdiva : s.a = s.b % s.a * (s.a / (s.b % s.a)) + s.a % (s.b % s.a) :=
      (Int.ediv_add_emod s.a (s.b % s.a)).symm
    have hdivb : s.b = s.a * (s.b / s.a) + s.b % s.a :=
      (Int.ediv_add_emod s.b s.a).symm
    have hq2 : 1 ≤ s.a / (s.b % s.a) := by
      rw [Int.le_ediv_iff_mul_le (by omega)]
      omega
    have hq1 : 1 ≤ s.b / s.a := by
      rw [Int.le_ediv_iff_mul_le (by omega)]
      omega
    have hstepa : (Nat.fib (2 * n + 3) : Int) ≤ s.a := by
      have hfib : (Nat.fib (2 * n + 3) : Int)
          = (Nat.fib (2 * n + 1) : Int) + (Nat.fib (2 * n + 2) : Int) := by
        have := Nat.fib_add_two (n := 2 * n + 1)
        push_cast [this]
        ring
      have hmul : s.b % s.a ≤ s.b % s.a * (s.a / (s.b % s.a)) :=
        le_mul_of_one_le_right (by omega) hq2
      omega
    have hstepb : (Nat.fib (2 * n + 4) : Int) ≤ s.b := by
      have hfib : (Nat.fib (2 * n + 4) : Int)
          = (Nat.fib (2 * n + 2) : Int) + (Nat.fib (2 * n + 3) : Int) := by
        have := Nat.fib_add_two (n := 2 * n + 2)
        push_cast [this]
        ring
      have hmul : s.a ≤ s.a * (s.b / s.a) :=
        le_mul_of_one_le_right (by omega) hq1
      omega
    constructor
    · have : 2 * (n + 1) + 1 = 2 * n + 3 := by ring
      rw [this]
      exact hstepa
    · have : 2 * (n + 1) + 2 = 2 * n + 4 := by ring
      rw [this]
      exact hstepb

lemma fib24_value : Nat.fib 24 = 46368 := by decide

/-- Full specification of inv_mod on its documented operating range: for
a modulus m at most 46340 and a nonnegative a below m coprime to m, the
11 fixed iterations converge and the result is the inverse of a, in
[0, m). -/
lemma inv_mod_spec (m a0 : Int) (hm1 : 2 ≤ m) (hm2 : m ≤ 46340)
    (h0 : 0 ≤ a0) (ham : a0 < m) (hcop : IsCoprime a0 m) :
    0 ≤ inv_mod a0 m ∧ inv_mod a0 m < m ∧
    (a0 * inv_mod a0 m) % m = 1 := by
  have hinv0 : EMInv m a0 (EMState.mk a0 m 1 0) := by
    refine ⟨h0, (by omega : (0:Int) ≤ m), le_refl 1, le_refl 0, by ring,
      (by omega : (1:Int) ≤ m), (by omega : -m ≤ (0:Int)), ?_, ?_, hcop⟩
    · show Int.ModEq m (1 * a0) a0
      rw [one_mul]
    · show Int.ModEq m (0 * a0) m
      show (0 * a0) % m = m % m
      simp [Int.emod_self]
  have hinv := EMInv_iter m a0 11 (EMState.mk a0 m 1 0) hinv0
  set sf := em_iter 11 (EMState.mk a0 m 1 0) with hsfdef
  obtain ⟨hA, hB, hX, hY, hDet, hXm, hYm, hCA, hCB, hCop⟩ := hinv
  have hconv : sf.a = 0 ∨ sf.b = 0 := by
    by_contra hcon
    push_neg at hcon
    have h1 : 1 ≤ sf.a := by
      have := hcon.1
      omega
    have h2 : 1 ≤ sf.b := by
      have := hcon.2
      omega
    rw [hsfdef] at h1 h2
    have hfib := em_fib 11 (EMState.mk a0 m 1 0) (by simpa using h0)
      (by simpa using ham) h1 h2
    have hfb := hfib.2
    simp only at hfb
    push_cast [fib24_value] at hfb
    omega
  have hdef : inv_mod a0 m = (if sf.b = 0 then sf.x else sf.y + m) := by
    rw [hsfdef]
    simp only [inv_mod]
    rw [if_neg (by omega : ¬ a0 < 0)]
  rw [hdef]
  by_cases hB0 : sf.b = 0
  · rw [if_pos hB0]
    rw [hB0] at hCop
    have hunit : IsUnit sf.a := isCoprime_zero_right.mp hCop
    have ha1 : sf.a = 1 := by
      rcases Int.isUnit_iff.mp hunit with h | h
      · exact h
      · omega
    have hX1 : Int.ModEq m (sf.x * a0) 1 := ha1 ▸ hCA
    have hxm : sf.x ≠ m := by
      intro h
      rw [h] at hX1
      have h2 : (m * a0) % m = 1 % m := hX1
      rw [Int.mul_emod_right,
        show (1:Int) % m = 1 from Int.emod_eq_of_lt (by omega) (by omega)]
        at h2
      omega
    refine ⟨by omega, by omega, ?_⟩
    have h2 : (sf.x * a0) % m = 1 % m := hX1
    rw [show (1:Int) % m = 1 from Int.emod_eq_of_lt (by omega) (by omega)]
      at h2
    rw [mul_comm a0 sf.x]
    exact h2
  · rw [if_neg hB0]
    have hA0 : sf.a = 0 := by
      rcases hconv with h | h
      · exact h
      · exact absurd h hB0
    rw [hA0] at hCop
    have hunit : IsUnit sf.b := isCoprime_zero_left.mp hCop
    have hb1 : sf.b = 1 := by
      rcases Int.isUnit_iff.mp hunit with h | h
      · exact h
      · omega
    have hY1 : Int.ModEq m (sf.y * a0) 1 := hb1 ▸ hCB
    have hyne : sf.y ≠ 0 := by
      intro h
      rw [h] at hY1
      have h2 : (0 * a0) % m = 1 % m := hY1
      rw [zero_mul, Int.zero_emod,
        show (1:Int) % m = 1 from Int.emod_eq_of_lt (by omega) (by omega)]
        at h2
      omega
    have hym0 : sf.y + m ≠ 0 := by
      intro h
      have hym : sf.y = -m := by omega
      rw [hym] at hY1
      have h2 : (-m * a0) % m = 1 % m := hY1
      rw [show -m * a0 = m * (-a0) from by ring, Int.mul_emod_right,
        show (1:Int) % m = 1 from Int.emod_eq_of_lt (by omega) (by omega)]
        at h2
      omega
    refine ⟨by omega, by omega, ?_⟩
    have h2 : (sf.y * a0) % m = 1 % m := hY1
    have h3 : (a0 * (sf.y + m)) % m = (sf.y * a0) % m := by
      rw [show a0 * (sf.y + m) = sf.y * a0 + m * a0 from by ring]
      exact Int.add_mul_emod_self_left (sf.y * a0) m a0
    rw [h3, h2,
      show (1:Int) % m = 1 from Int.emod_eq_of_lt (by omega) (by omega)]

/-- C2: for every modulus m = p^k at most 46340 (the prime powers below
the square root of INT32_MAX) and every residue a in [0, m) coprime to
the prime p, the 11 fixed iterations of inv_mod produce a true modular
inverse: (a * inv_mod a m) mod m = 1. -/
theorem inv_mod_round_trip (p : Nat) (hp : p.Prime) (k : Nat) (m a : Int)
    (hm : m = (p : Int) ^ k) (hmb : m ≤ 46340) (ha0 : 0 ≤ a) (ham : a < m)
    (hcop : ¬ ((p : Int) ∣ a)) :
    (a * inv_mod a m).tmod m = 1 := by
  have hpI : Prime (p : Int) := Nat.prime_iff_prime_int.mp hp
  have hp2 : (2 : Int) ≤ (p : Int) := by exact_mod_cast hp.two_le
  rcases Nat.eq_zero_or_pos k with rfl | hk
  · rw [hm] at ham
    simp only [pow_zero] at ham
    have ha : a = 0 := by omega
    exact absurd (ha ▸ dvd_zero (p : Int)) hcop
  · have hm2 : 2 ≤ m := by
      rw [hm]
      calc (2 : Int) ≤ (p : Int) := hp2
      _ ≤ (p : Int) ^ k := le_self_pow₀ (by omega) (by omega)
    have hcop2 : IsCoprime a m := by
      rw [hm]
      exact ((hpI.coprime_iff_not_dvd.mpr hcop).symm).pow_right
    have hspec := inv_mod_spec m a hm2 hmb ha0 ham hcop2
    rw [Int.tmod_eq_emod (mul_nonneg ha0 hspec.1) (by omega)]
    exact hspec.2.2

/-- Witness for C2 at a = 1, m = 2 = 2^1. -/
theorem inv_mod_round_trip_witness :
    ((2 : Int) = (2 : Nat) ^ 1 ∧ (2 : Int) ≤ 46340 ∧ (0 : Int) ≤ 1 ∧
      (1 : Int) < 2 ∧ ¬ (((2 : Nat) : Int) ∣ 1)) ∧
    ((1 : Int) * inv_mod 1 2).tmod 2 = 1 :=
  ⟨⟨by norm_num, by norm_num, by norm_num, by norm_num, by norm_num⟩,
   inv_mod_round_trip 2 Nat.prime_two 1 2 1 (by norm_num) (by norm_num)
     (by norm_num) (by norm_num) (by norm_num)⟩

lemma inv_mod_shift (a m : Int) (ha : a < 0) (ham : ¬ a + m < 0) :
    inv_mod a m = inv_mod (a + m) m := by
  simp only [inv_mod]
  rw [if_pos ha, if_neg ham]

/-- C6: for a prime power modulus m = p^k (k at least 1) at most 46340
and any a strictly between -m and m coprime to m (a negative a being
normalized by adding m), inv_mod returns a value in [0, m). -/
theorem inv_mod_range (p : Nat) (hp : p.Prime) (k : Nat) (hk : 1 ≤ k)
    (m a : Int) (hm : m = (p : Int) ^ k) (hmb : m ≤ 46340)
    (haL : -m < a) (haR : a < m) (hcop : IsCoprime a m) :
    0 ≤ inv_mod a m ∧ inv_mod a m < m := by
  have hp2 : (2 : Int) ≤ (p : Int) := by exact_mod_cast hp.two_le
  have hm2 : 2 ≤ m := by
    rw [hm]
    calc (2 : Int) ≤ (p : Int) := hp2
    _ ≤ (p : Int) ^ k := le_self_pow₀ (by omega) (by omega)
  rcases lt_or_ge a 0 with hneg | hpos
  · rw [inv_mod_shift a m hneg (by omega)]
    have hcop2 : IsCoprime (a + m) m := by
      have := hcop.add_mul_left_left 1
      simpa using this
    have hspec := inv_mod_spec m (a + m) hm2 hmb (by omega) (by omega) hcop2
    exact ⟨hspec.1, hspec.2.1⟩
  · have hspec := inv_mod_spec m a hm2 hmb hpos haR hcop
    exact ⟨hspec.1, hspec.2.1⟩

/-- Witness for C6 at a = -1, m = 3: the negative input is normalized and
the result 2 lies in [0, 3). -/
theorem inv_mod_range_witness :
    ((3 : Int) = (3 : Nat) ^ 1 ∧ (3 : Int) ≤ 46340 ∧ -(3 : Int) < -1 ∧
      (-1 : Int) < 3) ∧
    0 ≤ inv_mod (-1) 3 ∧ inv_mod (-1) 3 < 3 :=
  ⟨⟨by norm_num, by norm_num, by norm_num, by norm_num⟩,
   inv_mod_range 3 (by norm_num) 1 (by norm_num) 3 (-1) (by norm_num)
     (by norm_num) (by norm_num) (by norm_num)
     (Int.isCoprime_iff_gcd_eq_one.mpr (by decide))⟩

set_option maxRecDepth 100000 in
/-- C1: the digit block starting at the first decimal digit of pi: the
CLI shell calls pi_digits(start - 1), so pi_digits 0 computes digits 1
to 9 of pi after the decimal point, 141592653. -/
theorem pi_digits_first_block : pi_digits 0 = 141592653 := by decide
